import Mathlib

/-!
Verification of the Agromist hyperspectral classification pipeline
(source: test2.ipynb).

The development shallowly embeds the data-preparation and training-loop
logic of the notebook:

- the Sample Indexer (`HyperspectralDataset.__init__`): nested loops over
  seven fixed class names and indices 1..20, collecting existing files;
  the filesystem is abstracted as a boolean existence predicate on paths;
- the Loader/Transformer (`HyperspectralDataset.__getitem__`): axis
  permutation, bilinear resize to a 32 by 32 spatial grid, global min-max
  normalization; real arithmetic is embedded over the rationals, and the
  unguarded division by zero of the normalization step (NaN in the float
  semantics of the source) is embedded as an `Option` returning `none`;
- the empty-dataset guard at module level, embedded as `Except`;
- the network shape arithmetic of `HyperspectralCNN` (Conv3d / MaxPool3d
  output sizes, flattened feature count against the hardcoded `fc1` size);
- the Split Builder (the `train_test_split` call);
- the training loop (`train_model`): per-epoch, per-phase accumulation of
  running loss and correct counts; losses, predictions and the optimizer
  step are abstracted as an environment, while the loop structure and the
  bookkeeping are taken from the source.
-/

namespace Agromist

/-! ### Sample Indexer (HyperspectralDataset.__init__) -/

/-- The seven class names, in the order declared in the source. -/
def class_labels : List String :=
  ["canola", "soybean", "sugarbeet", "kochia",
   "common_ragweed", "common_waterhemp", "redroot_pigweed"]

/-- The path probed by the indexer for a class name and index:
`os.path.join` of the data directory with the file name built from the
class name, an underscore, the index and the `.npy` suffix. -/
def samplePath (data_dir label : String) (i : ℕ) : String :=
  data_dir ++ "/" ++ label ++ "_" ++ toString i ++ ".npy"

/-- The two parallel lists built by the constructor. -/
structure Dataset where
  file_paths : List String
  labels : List ℕ
deriving Repr, DecidableEq

/-- The inner loop of the constructor: `for i in range(1, 21)`, appending
the path and the class index whenever the file exists.  `ex` is the
embedding of `os.path.exists`. -/
def innerLoop (ex : String → Bool) (data_dir label : String) (label_idx : ℕ)
    (is : List ℕ) (d : Dataset) : Dataset :=
  is.foldl
    (fun d' i =>
      let file_path := samplePath data_dir label i
      if ex file_path then
        ⟨d'.file_paths ++ [file_path], d'.labels ++ [label_idx]⟩
      else d')
    d

/-- The outer loop of the constructor:
`for label_idx, label in enumerate(self.class_labels)`. -/
def outerLoop (ex : String → Bool) (data_dir : String)
    (cl : List (ℕ × String)) (d : Dataset) : Dataset :=
  cl.foldl (fun d' li => innerLoop ex data_dir li.2 li.1 (List.range' 1 20) d') d

/-- The constructor `HyperspectralDataset.__init__`: both loops, starting from two empty
lists.  The constructor only performs existence checks and appends; it has
no failure path. -/
def HyperspectralDataset.init (ex : String → Bool) (data_dir : String) : Dataset :=
  outerLoop ex data_dir class_labels.enum ⟨[], []⟩

/-- The length `__len__` of the dataset. -/
def Dataset.len (d : Dataset) : ℕ := d.file_paths.length

/-- The indices in 1..20 whose sample file exists, in ascending order. -/
def foundIdxs (ex : String → Bool) (data_dir label : String) (is : List ℕ) : List ℕ :=
  is.filter (fun i => ex (samplePath data_dir label i))

/-- Written from the spec words for the refinement claim C1: for every
class in the fixed declared order (outer) and every index 1..20 ascending
(inner), keep the pair of path and class index exactly when the file
exists. -/
def specIndex (ex : String → Bool) (data_dir : String) : List (String × ℕ) :=
  class_labels.enum.flatMap fun li =>
    ((List.range' 1 20).filter fun i => ex (samplePath data_dir li.2 i)).map
      fun i => (samplePath data_dir li.2 i, li.1)

/-- The message of the module-level empty-dataset guard. -/
def datasetEmptyMsg : String :=
  "The dataset is empty. Please check the data_dir and ensure it contains the expected .npy files."

/-- The module-level guard `if len(dataset) == 0: raise ValueError(...)`,
run after construction and before the split and any training. -/
def ensureNonEmpty (d : Dataset) : Except String Dataset :=
  if d.len = 0 then .error datasetEmptyMsg else .ok d

/-! Closed-form description of the two loops. -/

theorem innerLoop_eq (ex : String → Bool) (data_dir label : String) (label_idx : ℕ)
    (is : List ℕ) (d : Dataset) :
    innerLoop ex data_dir label label_idx is d =
      ⟨d.file_paths ++ (foundIdxs ex data_dir label is).map (samplePath data_dir label),
       d.labels ++ (foundIdxs ex data_dir label is).map (fun _ => label_idx)⟩ := by
  induction is generalizing d with
  | nil => simp [innerLoop, foundIdxs]
  | cons i is ih =>
    have step : innerLoop ex data_dir label label_idx (i :: is) d =
        innerLoop ex data_dir label label_idx is
          (if ex (samplePath data_dir label i) then
            ⟨d.file_paths ++ [samplePath data_dir label i], d.labels ++ [label_idx]⟩
          else d) := by
      simp only [innerLoop, List.foldl_cons]
    rw [step, ih]
    by_cases h : ex (samplePath data_dir label i) <;>
      simp [h, foundIdxs, List.filter_cons]

theorem outerLoop_eq (ex : String → Bool) (data_dir : String)
    (cl : List (ℕ × String)) (d : Dataset) :
    outerLoop ex data_dir cl d =
      ⟨d.file_paths ++ cl.flatMap (fun li =>
          (foundIdxs ex data_dir li.2 (List.range' 1 20)).map (samplePath data_dir li.2)),
       d.labels ++ cl.flatMap (fun li =>
          (foundIdxs ex data_dir li.2 (List.range' 1 20)).map (fun _ => li.1))⟩ := by
  induction cl generalizing d with
  | nil => simp [outerLoop]
  | cons li cl ih =>
    have step : outerLoop ex data_dir (li :: cl) d =
        outerLoop ex data_dir cl (innerLoop ex data_dir li.2 li.1 (List.range' 1 20) d) := by
      simp only [outerLoop, List.foldl_cons]
    rw [step, ih, innerLoop_eq]
    simp [List.append_assoc]

theorem init_eq (ex : String → Bool) (data_dir : String) :
    HyperspectralDataset.init ex data_dir =
      ⟨class_labels.enum.flatMap (fun li =>
          (foundIdxs ex data_dir li.2 (List.range' 1 20)).map (samplePath data_dir li.2)),
       class_labels.enum.flatMap (fun li =>
          (foundIdxs ex data_dir li.2 (List.range' 1 20)).map (fun _ => li.1))⟩ := by
  simp [HyperspectralDataset.init, outerLoop_eq]

/-- Claim C1: for every existence predicate and directory path, the
constructed pairs of file path and class index are exactly the spec
enumeration: outer loop over the seven class names in declared order,
inner loop over indices 1..20 ascending, keeping exactly the existing
files and preserving that relative order. -/
theorem indexer_matches_spec (ex : String → Bool) (data_dir : String) :
    ((HyperspectralDataset.init ex data_dir).file_paths).zip
        ((HyperspectralDataset.init ex data_dir).labels) =
      specIndex ex data_dir := by
  rw [init_eq]
  simp only [specIndex]
  induction class_labels.enum with
  | nil => simp
  | cons li cl ih =>
    simp only [List.flatMap_cons]
    rw [List.zip_append (by simp), List.zip_map', ih]
    simp [foundIdxs]

/-- Any list built by mapping a constant onto another list is pairwise
monotone after concatenation along a monotone key list. -/
theorem pairwise_flatMap_of_const (cl : List (ℕ × String)) (f : ℕ × String → List ℕ)
    (hf : ∀ li, ∀ x ∈ f li, x = li.1)
    (hcl : (cl.map Prod.fst).Pairwise (· ≤ ·)) :
    (cl.flatMap f).Pairwise (· ≤ ·) := by
  induction cl with
  | nil => simp
  | cons li cl ih =>
    simp only [List.flatMap_cons, List.pairwise_append]
    simp only [List.map_cons, List.pairwise_cons] at hcl
    refine ⟨?_, ih hcl.2, ?_⟩
    · exact List.pairwise_of_forall_mem_list fun a ha b hb => by
        rw [hf li a ha, hf li b hb]
    · intro a ha b hb
      rw [hf li a ha]
      obtain ⟨li', hli', hbli'⟩ := List.mem_flatMap.1 hb
      rw [hf li' b hbli']
      exact hcl.1 li'.1 (List.mem_map_of_mem Prod.fst hli')

/-- Claim C10: after construction, the path list and the label list have
the same length, every label is a class index in 0..6, the labels are
nondecreasing (class-major enumeration), and the dataset holds at most
7 times 20 samples. -/
theorem dataset_invariants (ex : String → Bool) (data_dir : String) :
    (HyperspectralDataset.init ex data_dir).file_paths.length =
        (HyperspectralDataset.init ex data_dir).labels.length ∧
      (∀ l ∈ (HyperspectralDataset.init ex data_dir).labels, l ≤ 6) ∧
      (HyperspectralDataset.init ex data_dir).labels.Pairwise (· ≤ ·) ∧
      (HyperspectralDataset.init ex data_dir).len ≤ 140 := by
  rw [Dataset.len, init_eq]
  refine ⟨by simp [List.length_flatMap, Function.comp_def], ?_, ?_, ?_⟩
  · intro l hl
    obtain ⟨li, hli, hl⟩ := List.mem_flatMap.1 hl
    obtain ⟨_, _, rfl⟩ := List.mem_map.1 hl
    have : li.1 ≤ 6 := by
      have : (li.1, li.2) ∈ class_labels.enum := by simpa using hli
      have := (List.mem_enum this).1
      simp [class_labels] at this
      omega
    exact this
  · refine pairwise_flatMap_of_const _ _ (fun li x hx => ?_) (by decide)
    obtain ⟨_, _, rfl⟩ := List.mem_map.1 hx
    rfl
  · have : ∀ x ∈ class_labels.enum.map
        (List.length ∘ fun li =>
          (foundIdxs ex data_dir li.2 (List.range' 1 20)).map (samplePath data_dir li.2)),
        x ≤ 20 := by
      intro x hx
      obtain ⟨li, _, rfl⟩ := List.mem_map.1 hx
      simpa [foundIdxs] using List.length_filter_le _ (List.range' 1 20)
    calc (class_labels.enum.flatMap fun li =>
            (foundIdxs ex data_dir li.2 (List.range' 1 20)).map
              (samplePath data_dir li.2)).length
        = (class_labels.enum.map (List.length ∘ fun li =>
            (foundIdxs ex data_dir li.2 (List.range' 1 20)).map
              (samplePath data_dir li.2))).sum := List.length_flatMap _ _
      _ ≤ _ • 20 := List.sum_le_card_nsmul _ 20 this
      _ ≤ 140 := by simp [class_labels]

/-- Claim C5 counterexample: on a directory where no file matching the
naming convention exists, the constructor itself raises nothing: it
returns normally, with both lists empty.  (The configuration error comes
only from the separate module-level guard, after construction.) -/
theorem indexer_empty_no_raise :
    HyperspectralDataset.init (fun _ => false) "dir" = ⟨[], []⟩ := by
  rw [init_eq]
  simp [foundIdxs]

/-- Claim C5 (amended): when no probed file exists, the constructor
returns the empty dataset, and the module-level guard that runs right
after construction rejects it with the configuration error message,
before the split and any training. -/
theorem indexer_empty_guarded (ex : String → Bool) (data_dir : String)
    (h : ∀ label ∈ class_labels, ∀ i ∈ List.range' 1 20,
      ex (samplePath data_dir label i) = false) :
    HyperspectralDataset.init ex data_dir = ⟨[], []⟩ ∧
      ensureNonEmpty (HyperspectralDataset.init ex data_dir) =
        .error datasetEmptyMsg := by
  have hinit : HyperspectralDataset.init ex data_dir = ⟨[], []⟩ := by
    rw [init_eq]
    have hblock : ∀ li ∈ class_labels.enum,
        foundIdxs ex data_dir li.2 (List.range' 1 20) = [] := by
      intro li hli
      have hmem : li.2 ∈ class_labels := by
        have h' : (li.1, li.2) ∈ class_labels.enum := by simpa using hli
        have := (List.mem_enum h').2
        rw [this]
        exact List.getElem_mem _
      exact List.filter_eq_nil_iff.2 fun i hi => by simp [h li.2 hmem i hi]
    simp only [Dataset.mk.injEq]
    constructor <;>
      · rw [List.flatMap_eq_nil_iff]
        intro li hli
        rw [hblock li hli]
        rfl
  refine ⟨hinit, ?_⟩
  rw [hinit]
  rfl

/-- Claim C5 witness input: the always-false existence predicate
satisfies the hypothesis of `indexer_empty_guarded`. -/
theorem indexer_empty_guarded_witness :
    HyperspectralDataset.init (fun _ => false) "d" = ⟨[], []⟩ ∧
      ensureNonEmpty (HyperspectralDataset.init (fun _ => false) "d") =
        .error datasetEmptyMsg :=
  indexer_empty_guarded (fun _ => false) "d" (fun _ _ _ _ => rfl)

/-! ### Network shape arithmetic (HyperspectralCNN)

The model runs on input of shape (batch, 1, bands, 32, 32): the loader
produces a cube of shape (bands, 32, 32) and `forward` prepends a
channel dimension of size 1.  `Conv3d` with stride 1 and no padding
needs each spatial extent to be at least the kernel extent and shrinks
it by kernel minus one; `MaxPool3d` with window w (default stride w,
no padding, floor mode) needs the extent to be at least w and maps n to
(n - w) / w + 1. -/

/-- Output extent of one dimension of `Conv3d` (stride 1, no padding). -/
def convOut (n k : ℕ) : Option ℕ := if k ≤ n then some (n - k + 1) else none

/-- Output extent of one dimension of `MaxPool3d` (stride = window, no
padding, floor mode). -/
def poolOut (n w : ℕ) : Option ℕ := if w ≤ n then some ((n - w) / w + 1) else none

/-- Depth, height, width of a 3d feature volume. -/
structure Dims3 where
  d : ℕ
  h : ℕ
  w : ℕ
deriving Repr, DecidableEq

def conv3dDims (k x : Dims3) : Option Dims3 :=
  if k.d ≤ x.d ∧ k.h ≤ x.h ∧ k.w ≤ x.w then
    some ⟨x.d - k.d + 1, x.h - k.h + 1, x.w - k.w + 1⟩
  else none

def pool3dDims (k x : Dims3) : Option Dims3 :=
  if k.d ≤ x.d ∧ k.h ≤ x.h ∧ k.w ≤ x.w then
    some ⟨(x.d - k.d) / k.d + 1, (x.h - k.h) / k.h + 1, (x.w - k.w) / k.w + 1⟩
  else none

/-- The flattened feature count reaching `fc1` in `forward`: the input
volume (bands, 32, 32) through conv1 with kernel (3, 3, 10), pool1 with
window (2, 2, 2) and conv2 with kernel (3, 3, 10), times the 64 output
channels of conv2. -/
def flattenedFeatures (bands : ℕ) : Option ℕ :=
  (conv3dDims ⟨3, 3, 10⟩ ⟨bands, 32, 32⟩).bind fun a =>
    (pool3dDims ⟨2, 2, 2⟩ a).bind fun b =>
      (conv3dDims ⟨3, 3, 10⟩ b).map fun c => 64 * (c.d * c.h * c.w)

/-- The input size hardcoded for `fc1` in `HyperspectralCNN.__init__`. -/
def fc1_in_features : ℕ := 64 * 15 * 15 * 53

/-- Claim C6 counterexample: at the 224-band input documented in the
source (the loader comment says the cube is resized to 32 by 32 with 224
bands), the pipeline flattens to 64 * 109 * 13 * 2 = 181376 features,
which is not the hardcoded fc1 input size 64 * 15 * 15 * 53 = 763200. -/
theorem fc1_size_mismatch_at_224 :
    flattenedFeatures 224 = some 181376 ∧ fc1_in_features = 763200 ∧
      (181376 : ℕ) ≠ 763200 := by
  refine ⟨?_, by decide, by decide⟩
  decide

/-- Claim C6: no band count at all makes the declared conv/pool pipeline
flatten to the hardcoded fc1 input size: whenever the pipeline is
defined, the feature count is 1664 * ((bands - 2) / 2 - 2), and 763200
is not a multiple of 1664. -/
theorem fc1_size_never_matches (bands : ℕ) :
    flattenedFeatures bands ≠ some fc1_in_features := by
  by_cases hb : 8 ≤ bands
  · have s1 : conv3dDims ⟨3, 3, 10⟩ ⟨bands, 32, 32⟩ =
        some ⟨bands - 3 + 1, 30, 23⟩ := by
      rw [conv3dDims]
      dsimp only
      rw [if_pos (by omega)]
    have s2 : pool3dDims ⟨2, 2, 2⟩ ⟨bands - 3 + 1, 30, 23⟩ =
        some ⟨(bands - 2) / 2, 15, 11⟩ := by
      rw [pool3dDims]
      dsimp only
      rw [if_pos (by omega)]
      simp only [Option.some.injEq, Dims3.mk.injEq]
      refine ⟨by omega, by norm_num, by norm_num⟩
    have s3 : conv3dDims ⟨3, 3, 10⟩ ⟨(bands - 2) / 2, 15, 11⟩ =
        some ⟨(bands - 2) / 2 - 2, 13, 2⟩ := by
      rw [conv3dDims]
      dsimp only
      rw [if_pos (by omega)]
      simp only [Option.some.injEq, Dims3.mk.injEq]
      refine ⟨by omega, by norm_num, by norm_num⟩
    have hform : flattenedFeatures bands =
        some (64 * (((bands - 2) / 2 - 2) * 13 * 2)) := by
      rw [flattenedFeatures, s1, Option.some_bind, s2, Option.some_bind, s3,
        Option.map_some']
    rw [hform, fc1_in_features]
    intro hcontra
    have : 64 * (((bands - 2) / 2 - 2) * 13 * 2) = 64 * 15 * 15 * 53 := by
      simpa using hcontra
    omega
  · interval_cases bands <;> decide

/-! ### Split Builder (the train_test_split call) -/

/-- Modelled from the spec: the seeded shuffling inside sklearn's
`train_test_split` (a `RandomState(seed)` permutation) is external
library code whose exact stream is not in this repository; it is
modelled as the deterministic permutation obtained by sorting on a
seed-keyed linear-congruential hash.  Only the facts the spec relies on
are used: it is a permutation of its input and a pure function of the
seed. -/
def shuffleKey (seed i : ℕ) : ℕ := (1103515245 * i + 12345 + seed) % 2147483648

/-- Modelled from the spec: a deterministic seed-driven permutation of a
list of indices. -/
def seededShuffle (seed : ℕ) (l : List ℕ) : List ℕ :=
  List.insertionSort (fun a b => shuffleKey seed a ≤ shuffleKey seed b) l

/-- The positions of the samples of class `c`, in ascending order. -/
def classIndices (labels : List ℕ) (c : ℕ) : List ℕ :=
  (List.range labels.length).filter (fun i => labels.getD i 0 == c)

/-- The per-class validation count for a class of size n: at least one
sample, otherwise the floor of n times the validation fraction. -/
def valCount (n : ℕ) (test_size : ℚ) : ℕ :=
  max 1 (Int.toNat ⌊(n : ℚ) * test_size⌋)

/-- Modelled from the spec: sklearn's stratified `train_test_split` on
the label list, returning the train and validation index lists.  Per
class (classes taken in first-appearance order), the class's positions
are permuted deterministically by the seed and the validation block is
split off; the remainder is the train block. -/
def train_test_split (labels : List ℕ) (test_size : ℚ) (seed : ℕ) :
    List ℕ × List ℕ :=
  let classes := labels.dedup
  let split := fun c =>
    let s := seededShuffle seed (classIndices labels c)
    (s.drop (valCount s.length test_size), s.take (valCount s.length test_size))
  (classes.flatMap fun c => (split c).1, classes.flatMap fun c => (split c).2)

theorem seededShuffle_perm (seed : ℕ) (l : List ℕ) :
    (seededShuffle seed l).Perm l :=
  List.perm_insertionSort _ l

theorem classIndices_nodup (labels : List ℕ) (c : ℕ) :
    (classIndices labels c).Nodup :=
  (List.nodup_range _).filter _

theorem mem_classIndices (labels : List ℕ) (c i : ℕ) :
    i ∈ classIndices labels c ↔ i < labels.length ∧ labels.getD i 0 = c := by
  simp [classIndices]

/-- Claim C3: for every label list with at least two samples per class,
the split with validation fraction 0.2 partitions the index range: the
union of the train and validation index sets is exactly the range below
the sample count and their intersection is empty. -/
theorem split_partitions (labels : List ℕ) (seed : ℕ)
    (_h2 : ∀ c ∈ labels, 2 ≤ labels.count c) (_h14 : 14 ≤ labels.length) :
    (train_test_split labels (1/5) seed).1.toFinset ∪
        (train_test_split labels (1/5) seed).2.toFinset =
      Finset.range labels.length ∧
    (train_test_split labels (1/5) seed).1.toFinset ∩
        (train_test_split labels (1/5) seed).2.toFinset = ∅ := by
  constructor
  · ext i
    simp only [Finset.mem_union, List.mem_toFinset, Finset.mem_range,
      train_test_split, List.mem_flatMap]
    constructor
    · rintro (⟨c, _, hi⟩ | ⟨c, _, hi⟩)
      · have := ((seededShuffle_perm seed _).mem_iff).1 (List.mem_of_mem_drop hi)
        exact ((mem_classIndices labels c i).1 this).1
      · have := ((seededShuffle_perm seed _).mem_iff).1 (List.mem_of_mem_take hi)
        exact ((mem_classIndices labels c i).1 this).1
    · intro hi
      set c := labels.getD i 0 with hc
      have hcmem : c ∈ labels.dedup :=
        List.mem_dedup.2 (by rw [hc, labels.getD_eq_getElem 0 hi]; exact List.getElem_mem hi)
      have hci : i ∈ seededShuffle seed (classIndices labels c) :=
        ((seededShuffle_perm seed _).mem_iff).2
          ((mem_classIndices labels c i).2 ⟨hi, rfl⟩)
      rw [← List.take_append_drop
        (valCount (seededShuffle seed (classIndices labels c)).length (1/5))
        (seededShuffle seed (classIndices labels c))] at hci
      rcases List.mem_append.1 hci with h | h
      · exact Or.inr ⟨c, hcmem, h⟩
      · exact Or.inl ⟨c, hcmem, h⟩
  · rw [Finset.eq_empty_iff_forall_not_mem]
    intro i hi
    simp only [Finset.mem_inter, List.mem_toFinset, train_test_split,
      List.mem_flatMap] at hi
    obtain ⟨⟨c, _, hdrop⟩, ⟨c', _, htake⟩⟩ := hi
    have hc : labels.getD i 0 = c :=
      ((mem_classIndices labels c i).1
        (((seededShuffle_perm seed _).mem_iff).1 (List.mem_of_mem_drop hdrop))).2
    have hc' : labels.getD i 0 = c' :=
      ((mem_classIndices labels c' i).1
        (((seededShuffle_perm seed _).mem_iff).1 (List.mem_of_mem_take htake))).2
    rw [hc] at hc'
    subst hc'
    have hnd : (seededShuffle seed (classIndices labels c)).Nodup :=
      ((seededShuffle_perm seed _).symm).nodup (classIndices_nodup labels c)
    exact (List.disjoint_take_drop hnd le_rfl).symm hdrop htake

/-- Claim C3 witness input: 14 samples, two per class. -/
theorem split_partitions_witness :
    (train_test_split [0, 0, 1, 1, 2, 2, 3, 3, 4, 4, 5, 5, 6, 6] (1/5) 42).1.toFinset ∪
        (train_test_split [0, 0, 1, 1, 2, 2, 3, 3, 4, 4, 5, 5, 6, 6] (1/5) 42).2.toFinset =
      Finset.range 14 ∧
    (train_test_split [0, 0, 1, 1, 2, 2, 3, 3, 4, 4, 5, 5, 6, 6] (1/5) 42).1.toFinset ∩
        (train_test_split [0, 0, 1, 1, 2, 2, 3, 3, 4, 4, 5, 5, 6, 6] (1/5) 42).2.toFinset = ∅ :=
  split_partitions [0, 0, 1, 1, 2, 2, 3, 3, 4, 4, 5, 5, 6, 6] 42
    (by decide) (by decide)

/-- Claim C9: the Split Builder is deterministic: two runs on the same
labels with validation fraction 0.2 and seed 42 return equal train index
lists and equal validation index lists. -/
theorem split_deterministic (labels : List ℕ) (s₁ s₂ : List ℕ × List ℕ)
    (h₁ : s₁ = train_test_split labels (1/5) 42)
    (h₂ : s₂ = train_test_split labels (1/5) 42) :
    s₁.1 = s₂.1 ∧ s₁.2 = s₂.2 := by
  subst h₁ h₂
  exact ⟨rfl, rfl⟩

/-- Claim C9 witness input: two runs on a concrete label list. -/
theorem split_deterministic_witness :
    (train_test_split [0, 0, 1, 1] (1/5) 42).1 =
        (train_test_split [0, 0, 1, 1] (1/5) 42).1 ∧
      (train_test_split [0, 0, 1, 1] (1/5) 42).2 =
        (train_test_split [0, 0, 1, 1] (1/5) 42).2 :=
  split_deterministic [0, 0, 1, 1] _ _ rfl rfl

/-! ### Training loop (train_model)

The loop structure and the bookkeeping are embedded from the source;
the quantities produced by the framework are abstracted: a batch
carries its size, the scalar loss value and the correct-prediction
count the model yields on it as functions of the current parameters,
and the combined effect of `loss.backward()` plus `optimizer.step()` is
an abstract parameter update `optStep`.  `optimizer.zero_grad()` clears
gradients only and never touches parameter values, so it has no
footprint on this state. -/

inductive Phase where
  | train
  | val
deriving DecidableEq, Repr

/-- One batch as seen by the loop: its size (`inputs.size(0)`), and the
loss value and correct-count the model produces on it from the current
parameters. -/
structure Batch (P : Type) where
  size : ℕ
  lossOn : P → ℚ
  correctOn : P → ℕ

/-- The collaborators of `train_model`: the per-epoch, per-phase batch
streams of `dataloaders`, the sizes `len(dataloaders[phase].dataset)`,
and the optimizer update applied on a train batch. -/
structure TrainEnv (P : Type) where
  loaders : ℕ → Phase → List (Batch P)
  datasetSize : Phase → ℕ
  optStep : P → Batch P → P

/-- The body of the batch loop: compute loss and predictions from the
current parameters, step the optimizer only in the train phase, then
accumulate the running loss (scaled by the batch size) and the running
correct count. -/
def runBatch {P : Type} (env : TrainEnv P) (phase : Phase)
    (st : P × ℚ × ℕ) (b : Batch P) : P × ℚ × ℕ :=
  let loss := b.lossOn st.1
  let correct := b.correctOn st.1
  let p' := if phase = Phase.train then env.optStep st.1 b else st.1
  (p', st.2.1 + loss * (b.size : ℚ), st.2.2 + correct)

/-- The full batch loop of one phase, from parameters `p` and running
loss and correct count both zero. -/
def running {P : Type} (env : TrainEnv P) (epoch : ℕ) (phase : Phase)
    (p : P) : P × ℚ × ℕ :=
  (env.loaders epoch phase).foldl (runBatch env phase) (p, 0, 0)

/-- The mutable state of `train_model`: the model parameters and the two
history lists. -/
structure TrainState (P : Type) where
  params : P
  train_loss : List ℚ
  val_acc : List ℚ

/-- One phase of one epoch: run the batch loop, divide the running
totals by the phase's dataset size, and append the epoch loss to the
training-loss history when the phase is train, the epoch accuracy to
the validation-accuracy history when the phase is val. -/
def runPhase {P : Type} (env : TrainEnv P) (epoch : ℕ) (phase : Phase)
    (st : TrainState P) : TrainState P :=
  let r := running env epoch phase st.params
  let epoch_loss := r.2.1 / (env.datasetSize phase : ℚ)
  let epoch_acc := (r.2.2 : ℚ) / (env.datasetSize phase : ℚ)
  { params := r.1
    train_loss :=
      if phase = Phase.train then st.train_loss ++ [epoch_loss] else st.train_loss
    val_acc :=
      if phase = Phase.val then st.val_acc ++ [epoch_acc] else st.val_acc }

/-- One epoch: the train phase, then the val phase. -/
def runEpoch {P : Type} (env : TrainEnv P) (st : TrainState P) (epoch : ℕ) :
    TrainState P :=
  runPhase env epoch Phase.val (runPhase env epoch Phase.train st)

/-- The loop `train_model`: `num_epochs` epochs from initial parameters `p0`,
histories starting empty; returns the final parameters and the two
histories. -/
def train_model {P : Type} (env : TrainEnv P) (p0 : P) (num_epochs : ℕ) :
    TrainState P :=
  (List.range num_epochs).foldl (runEpoch env) ⟨p0, [], []⟩

theorem train_model_succ {P : Type} (env : TrainEnv P) (p0 : P) (n : ℕ) :
    train_model env p0 (n + 1) = runEpoch env (train_model env p0 n) n := by
  rw [train_model, List.range_succ, List.foldl_append]
  rfl

theorem runEpoch_train_loss {P : Type} (env : TrainEnv P) (st : TrainState P) (e : ℕ) :
    (runEpoch env st e).train_loss =
      st.train_loss ++
        [(running env e Phase.train st.params).2.1 /
          (env.datasetSize Phase.train : ℚ)] := by
  simp [runEpoch, runPhase]

theorem runEpoch_val_acc {P : Type} (env : TrainEnv P) (st : TrainState P) (e : ℕ) :
    (runEpoch env st e).val_acc =
      st.val_acc ++
        [((running env e Phase.val (runPhase env e Phase.train st).params).2.2 : ℚ) /
          (env.datasetSize Phase.val : ℚ)] := by
  simp [runEpoch, runPhase]

/-- Claim C7: in every epoch, the recorded epoch loss is the running
loss (each batch's loss scaled by its batch size, summed by the batch
loop) divided by the phase's dataset size, and the recorded epoch
accuracy is the running correct count divided by the phase's dataset
size; exactly one loss is appended per train phase and one accuracy per
val phase, so both histories have one entry per epoch. -/
theorem train_model_accounting {P : Type} (env : TrainEnv P) (p0 : P)
    (num_epochs : ℕ) :
    (train_model env p0 num_epochs).train_loss.length = num_epochs ∧
      (train_model env p0 num_epochs).val_acc.length = num_epochs ∧
      ∀ e, e < num_epochs →
        (train_model env p0 num_epochs).train_loss.getD e 0 =
            (running env e Phase.train (train_model env p0 e).params).2.1 /
              (env.datasetSize Phase.train : ℚ) ∧
          (train_model env p0 num_epochs).val_acc.getD e 0 =
            ((running env e Phase.val
                (runPhase env e Phase.train (train_model env p0 e)).params).2.2 : ℚ) /
              (env.datasetSize Phase.val : ℚ) := by
  induction num_epochs with
  | zero => exact ⟨rfl, rfl, fun e he => absurd he (Nat.not_lt_zero e)⟩
  | succ n ih =>
    obtain ⟨hlen, hlenv, hform⟩ := ih
    rw [train_model_succ]
    refine ⟨by rw [runEpoch_train_loss]; simp [hlen], by rw [runEpoch_val_acc]; simp [hlenv], ?_⟩
    intro e he
    rcases Nat.lt_succ_iff_lt_or_eq.1 he with he' | rfl
    · obtain ⟨h1, h2⟩ := hform e he'
      refine ⟨?_, ?_⟩
      · rw [runEpoch_train_loss, List.getD_append _ _ _ _ (by rw [hlen]; exact he'), h1]
      · rw [runEpoch_val_acc, List.getD_append _ _ _ _ (by rw [hlenv]; exact he'), h2]
    · refine ⟨?_, ?_⟩
      · rw [runEpoch_train_loss,
          List.getD_eq_getElem _ _ (by simp [hlen]),
          List.getElem_concat_length _ _ e (hlen.symm) (by simp [hlen])]
      · rw [runEpoch_val_acc,
          List.getD_eq_getElem _ _ (by simp [hlenv]),
          List.getElem_concat_length _ _ e (hlenv.symm) (by simp [hlenv])]

/-- A concrete environment used to instantiate the accounting theorem:
one batch of size 2 per phase, parameters a rational, the optimizer
step adding one. -/
def demoEnv : TrainEnv ℚ where
  loaders := fun _ _ => [⟨2, fun p => p + 1, fun _ => 1⟩]
  datasetSize := fun _ => 2
  optStep := fun p _ => p + 1

/-- Claim C7 witness input: the accounting theorem instantiated at the
concrete environment, one epoch, epoch 0. -/
theorem train_model_accounting_witness :
    (train_model demoEnv 0 1).train_loss.getD 0 0 =
        (running demoEnv 0 Phase.train (train_model demoEnv 0 0).params).2.1 /
          (demoEnv.datasetSize Phase.train : ℚ) ∧
      (train_model demoEnv 0 1).val_acc.getD 0 0 =
        ((running demoEnv 0 Phase.val
            (runPhase demoEnv 0 Phase.train (train_model demoEnv 0 0)).params).2.2 : ℚ) /
          (demoEnv.datasetSize Phase.val : ℚ) :=
  (train_model_accounting demoEnv 0 1).2.2 0 (by decide)

theorem foldl_runBatch_val_fst {P : Type} (env : TrainEnv P)
    (l : List (Batch P)) :
    ∀ p rl rc, (l.foldl (runBatch env Phase.val) (p, rl, rc)).1 = p := by
  induction l with
  | nil => intro p rl rc; rfl
  | cons b l ih =>
    intro p rl rc
    simpa [runBatch] using ih p _ _

theorem foldl_runBatch_train_fst {P : Type} (env : TrainEnv P)
    (l : List (Batch P)) :
    ∀ p rl rc, (l.foldl (runBatch env Phase.train) (p, rl, rc)).1 =
      l.foldl env.optStep p := by
  induction l with
  | nil => intro p rl rc; rfl
  | cons b l ih =>
    intro p rl rc
    simpa [runBatch] using ih _ _ _

/-- Claim C8: the val phase leaves the model parameters unchanged: after
any val phase the parameters equal the parameters before it; and the
train phase changes them exactly by folding the optimizer step over its
batches, so the optimizer step during train is the only mutation. -/
theorem val_phase_preserves_params {P : Type} (env : TrainEnv P) (e : ℕ)
    (st : TrainState P) :
    (runPhase env e Phase.val st).params = st.params ∧
      (runPhase env e Phase.train st).params =
        (env.loaders e Phase.train).foldl env.optStep st.params := by
  constructor
  · exact foldl_runBatch_val_fst env (env.loaders e Phase.val) st.params 0 0
  · exact foldl_runBatch_train_fst env (env.loaders e Phase.train) st.params 0 0

/-! ### Loader/Transformer (HyperspectralDataset.__getitem__)

The loaded cube is a nested list of rationals with shape
(height, width, bands).  The source permutes the axes to channel-first,
resizes each channel to 32 by 32 with torch bilinear interpolation
(default `align_corners` false, no antialiasing), and min-max
normalizes over the whole tensor.  The float operation
`(x - min) / (max - min)` produces NaN or infinity when max equals min,
since the source has no guard; this fallible step is embedded as an
`Option` that is `none` exactly when the divisor is zero. -/

/-- A rank-3 tensor as nested lists (outer to inner). -/
abbrev Tensor3 := List (List (List ℚ))

/-- All entries of a matrix, row-major. -/
def flatMat (m : List (List ℚ)) : List ℚ := m.flatMap id

/-- All entries of a rank-3 tensor. -/
def flat3 (t : Tensor3) : List ℚ := t.flatMap flatMat

/-- The channel count of a loaded (height, width, bands) cube: the
length of the first pixel's band vector. -/
def bandCount (raw : Tensor3) : ℕ := ((raw.headD []).headD []).length

/-- The reordering `permute(2, 0, 1)`: channel-first, so that entry
(c, h, w) of the result is entry (h, w, c) of the input. -/
def permute201 (raw : Tensor3) : Tensor3 :=
  (List.range (bandCount raw)).map fun c =>
    raw.map fun row => row.map fun px => px.getD c 0

/-- The source position sampled by torch bilinear interpolation with
`align_corners` false for output cell `dst` of an axis of input extent
`inSize` and output extent 32: `(dst + 0.5) * inSize / 32 - 0.5`,
clipped below at 0. -/
def srcIndex (inSize dst : ℕ) : ℚ :=
  max 0 (((dst : ℚ) + 1 / 2) * (inSize : ℚ) / 32 - 1 / 2)

/-- The lower interpolation neighbour: the integer part of the source
position (nonnegative after clipping). -/
def lowIdx (s : ℚ) : ℕ := (⌊s⌋).toNat

/-- The upper interpolation neighbour: the next cell, unless the lower
neighbour is already the last cell of the axis. -/
def hiIdx (inSize i0 : ℕ) : ℕ := if i0 + 1 < inSize then i0 + 1 else i0

/-- Matrix entry access (out-of-range reads default to 0; all reads in
the development are proved in range). -/
def at2 (m : List (List ℚ)) (i j : ℕ) : ℚ := (m.getD i []).getD j 0

/-- One bilinear sample of a channel of extents `hIn` by `wIn` at output
cell (i, j): the weighted average of the four neighbouring entries. -/
def bilinearAt (ch : List (List ℚ)) (hIn wIn i j : ℕ) : ℚ :=
  let sy := srcIndex hIn i
  let sx := srcIndex wIn j
  let y0 := lowIdx sy
  let y1 := hiIdx hIn y0
  let ly := sy - (y0 : ℚ)
  let x0 := lowIdx sx
  let x1 := hiIdx wIn x0
  let lx := sx - (x0 : ℚ)
  (1 - ly) * ((1 - lx) * at2 ch y0 x0 + lx * at2 ch y0 x1) +
    ly * ((1 - lx) * at2 ch y1 x0 + lx * at2 ch y1 x1)

/-- Bilinear resize of one channel to 32 by 32. -/
def resizeChannel (ch : List (List ℚ)) : List (List ℚ) :=
  (List.range 32).map fun i =>
    (List.range 32).map fun j =>
      bilinearAt ch ch.length (ch.headD []).length i j

/-- The call `nn.functional.interpolate(..., size=(32, 32), mode=bilinear)`
on a channel-first tensor. -/
def resize32 (t : Tensor3) : Tensor3 := t.map resizeChannel

/-- Minimum of a list of rationals (`tensor.min()`); 0 on the empty
list, which never occurs on real data. -/
def listMin : List ℚ → ℚ
  | [] => 0
  | x :: xs => xs.foldl min x

/-- Maximum of a list of rationals (`tensor.max()`). -/
def listMax : List ℚ → ℚ
  | [] => 0
  | x :: xs => xs.foldl max x

def tensorMin (t : Tensor3) : ℚ := listMin (flat3 t)

def tensorMax (t : Tensor3) : ℚ := listMax (flat3 t)

/-- The normalization `(cube - cube.min()) / (cube.max() - cube.min())`.
When the global
maximum equals the global minimum the source divides by zero (NaN in
float arithmetic); that case is embedded as `none`. -/
def normalizeTensor (t : Tensor3) : Option Tensor3 :=
  if tensorMax t = tensorMin t then none
  else
    some (t.map fun m => m.map fun r => r.map fun x =>
      (x - tensorMin t) / (tensorMax t - tensorMin t))

/-- The accessor `__getitem__` on a loaded cube and its stored label: permute to
channel-first, resize, normalize, return the tensor with the label. -/
def getitem (raw : Tensor3) (label : ℕ) : Option (Tensor3 × ℕ) :=
  (normalizeTensor (resize32 (permute201 raw))).map fun t => (t, label)

/-- The loaded cube has shape (hIn, wIn, c): hIn rows of wIn pixels of
c band values. -/
@[reducible] def IsCube (hIn wIn c : ℕ) (raw : Tensor3) : Prop :=
  raw.length = hIn ∧ ∀ row ∈ raw, row.length = wIn ∧ ∀ px ∈ row, px.length = c

/-- The tensor has shape (c, h, w). -/
def shape3 (t : Tensor3) (c h w : ℕ) : Prop :=
  t.length = c ∧ ∀ m ∈ t, m.length = h ∧ ∀ r ∈ m, r.length = w

/-! Generic facts about the pieces. -/

theorem mem_flat3 {x : ℚ} {t : Tensor3} :
    x ∈ flat3 t ↔ ∃ m ∈ t, ∃ r ∈ m, x ∈ r := by
  simp [flat3, flatMat, List.mem_flatMap]

theorem flatMat_map_eq (m : List (List ℚ)) (f : ℚ → ℚ) :
    flatMat (m.map fun r => r.map f) = (flatMat m).map f := by
  simp [flatMat, List.flatMap_map, List.map_flatMap, List.flatMap_def]

theorem flat3_map_eq (t : Tensor3) (f : ℚ → ℚ) :
    flat3 (t.map fun m => m.map fun r => r.map f) = (flat3 t).map f := by
  induction t with
  | nil => rfl
  | cons m t ih =>
    simp only [flat3, List.map_cons, List.flatMap_cons] at *
    rw [flatMat_map_eq, ih, List.map_append]

theorem foldl_min_le (xs : List ℚ) : ∀ a : ℚ, xs.foldl min a ≤ a := by
  induction xs with
  | nil => intro a; exact le_refl a
  | cons x xs ih => intro a; exact le_trans (ih (min a x)) (min_le_left a x)

theorem foldl_min_le_mem (xs : List ℚ) : ∀ a, ∀ y ∈ xs, xs.foldl min a ≤ y := by
  induction xs with
  | nil => intro a y hy; cases hy
  | cons x xs ih =>
    intro a y hy
    rcases List.mem_cons.1 hy with rfl | hy
    · exact le_trans (foldl_min_le xs (min a y)) (min_le_right a y)
    · exact ih (min a x) y hy

theorem le_foldl_max (xs : List ℚ) : ∀ a : ℚ, a ≤ xs.foldl max a := by
  induction xs with
  | nil => intro a; exact le_refl a
  | cons x xs ih => intro a; exact le_trans (le_max_left a x) (ih (max a x))

theorem le_foldl_max_mem (xs : List ℚ) : ∀ a, ∀ y ∈ xs, y ≤ xs.foldl max a := by
  induction xs with
  | nil => intro a y hy; cases hy
  | cons x xs ih =>
    intro a y hy
    rcases List.mem_cons.1 hy with rfl | hy
    · exact le_trans (le_max_right a y) (le_foldl_max xs (max a y))
    · exact ih (max a x) y hy

theorem listMin_le {l : List ℚ} {y : ℚ} (hy : y ∈ l) : listMin l ≤ y := by
  cases l with
  | nil => cases hy
  | cons x xs =>
    rcases List.mem_cons.1 hy with rfl | hy
    · exact foldl_min_le xs y
    · exact foldl_min_le_mem xs x y hy

theorem le_listMax {l : List ℚ} {y : ℚ} (hy : y ∈ l) : y ≤ listMax l := by
  cases l with
  | nil => cases hy
  | cons x xs =>
    rcases List.mem_cons.1 hy with rfl | hy
    · exact le_foldl_max xs y
    · exact le_foldl_max_mem xs x y hy

theorem foldl_min_const (xs : List ℚ) (k : ℚ) (h : ∀ x ∈ xs, x = k) :
    xs.foldl min k = k := by
  induction xs with
  | nil => rfl
  | cons x xs ih =>
    have hx := h x (List.mem_cons_self x xs)
    subst hx
    simpa [min_self] using ih fun y hy => h y (List.mem_cons_of_mem x hy)

theorem foldl_max_const (xs : List ℚ) (k : ℚ) (h : ∀ x ∈ xs, x = k) :
    xs.foldl max k = k := by
  induction xs with
  | nil => rfl
  | cons x xs ih =>
    have hx := h x (List.mem_cons_self x xs)
    subst hx
    simpa [max_self] using ih fun y hy => h y (List.mem_cons_of_mem x hy)

theorem listMin_eq_listMax_of_const {l : List ℚ} {k : ℚ} (h : ∀ x ∈ l, x = k) :
    listMin l = listMax l := by
  cases l with
  | nil => rfl
  | cons x xs =>
    have hx := h x (List.mem_cons_self x xs)
    subst hx
    have hxs : ∀ y ∈ xs, y = x := fun y hy => h y (List.mem_cons_of_mem x hy)
    rw [listMin, listMax, foldl_min_const xs x hxs, foldl_max_const xs x hxs]

theorem srcIndex_nonneg (inSize dst : ℕ) : 0 ≤ srcIndex inSize dst :=
  le_max_left 0 _

theorem srcIndex_lt (inSize dst : ℕ) (h : 0 < inSize) (hd : dst < 32) :
    srcIndex inSize dst < (inSize : ℚ) := by
  rw [srcIndex]
  have hin : (0 : ℚ) < (inSize : ℚ) := by exact_mod_cast h
  have hdq : (dst : ℚ) ≤ 31 := by exact_mod_cast Nat.lt_succ_iff.1 hd
  refine max_lt hin ?_
  rw [div_sub' _ _ _ (by norm_num), div_lt_iff₀ (by norm_num : (0 : ℚ) < 32)]
  nlinarith [mul_nonneg (show (0 : ℚ) ≤ 31 - (dst : ℚ) by linarith) hin.le]

theorem lowIdx_eq (s : ℚ) (n : ℕ) (h1 : (n : ℚ) ≤ s) (h2 : s < (n : ℚ) + 1) :
    lowIdx s = n := by
  rw [lowIdx, show ⌊s⌋ = (n : ℤ) from
    Int.floor_eq_iff.2 ⟨by exact_mod_cast h1, by push_cast; exact h2⟩]
  exact Int.toNat_natCast n

theorem lowIdx_lt (inSize dst : ℕ) (h : 0 < inSize) (hd : dst < 32) :
    lowIdx (srcIndex inSize dst) < inSize := by
  rw [lowIdx]
  have h1 : ⌊srcIndex inSize dst⌋ < (inSize : ℤ) :=
    Int.floor_lt.2 (by exact_mod_cast srcIndex_lt inSize dst h hd)
  have h0 : 0 ≤ ⌊srcIndex inSize dst⌋ :=
    Int.floor_nonneg.2 (srcIndex_nonneg inSize dst)
  omega

theorem hiIdx_lt (inSize i0 : ℕ) (h : i0 < inSize) : hiIdx inSize i0 < inSize := by
  rw [hiIdx]
  split <;> omega

theorem shape3_resize32 (t : Tensor3) : shape3 (resize32 t) t.length 32 32 := by
  refine ⟨by simp [resize32], ?_⟩
  intro m hm
  obtain ⟨ch, _, rfl⟩ := List.mem_map.1 hm
  refine ⟨by simp [resizeChannel], ?_⟩
  intro r hr
  obtain ⟨i, _, rfl⟩ := List.mem_map.1 hr
  simp

theorem shape3_map (t : Tensor3) (f : ℚ → ℚ) (c h w : ℕ)
    (ht : shape3 t c h w) :
    shape3 (t.map fun m => m.map fun r => r.map f) c h w := by
  obtain ⟨hlen, hmem⟩ := ht
  refine ⟨by simpa using hlen, ?_⟩
  intro m hm
  obtain ⟨m', hm', rfl⟩ := List.mem_map.1 hm
  obtain ⟨hlen', hrow⟩ := hmem m' hm'
  refine ⟨by simpa using hlen', ?_⟩
  intro r hr
  obtain ⟨r', hr', rfl⟩ := List.mem_map.1 hr
  simpa using hrow r' hr'

theorem bandCount_eq (raw : Tensor3) (hIn wIn c : ℕ)
    (hcube : IsCube hIn wIn c raw) (hh : 0 < hIn) (hw : 0 < wIn) :
    bandCount raw = c := by
  obtain ⟨hlen, hrow⟩ := hcube
  cases raw with
  | nil => simp at hlen; omega
  | cons r rest =>
    obtain ⟨hrlen, hpx⟩ := hrow r (List.mem_cons_self r rest)
    cases r with
    | nil => simp at hrlen; omega
    | cons px pr =>
      simpa [bandCount] using hpx px (List.mem_cons_self px pr)

theorem normalizeTensor_eq_some (t : Tensor3)
    (hne : tensorMax t ≠ tensorMin t) :
    normalizeTensor t =
      some (t.map fun m => m.map fun r => r.map fun x =>
        (x - tensorMin t) / (tensorMax t - tensorMin t)) := by
  rw [normalizeTensor, if_neg hne]

theorem flat3_single (m : List (List ℚ)) : flat3 [m] = flatMat m := by
  simp [flat3]

theorem mem_resizeChannel_eq (ch : List (List ℚ)) {x : ℚ}
    (hx : x ∈ flatMat (resizeChannel ch)) :
    ∃ i < 32, ∃ j < 32,
      x = bilinearAt ch ch.length (ch.headD []).length i j := by
  rw [flatMat] at hx
  obtain ⟨r, hr, hxr⟩ := List.mem_flatMap.1 hx
  rw [resizeChannel] at hr
  obtain ⟨i, hi, rfl⟩ := List.mem_map.1 hr
  obtain ⟨j, hj, rfl⟩ := List.mem_map.1 hxr
  exact ⟨i, List.mem_range.1 hi, j, List.mem_range.1 hj, rfl⟩

theorem bilinearAt_mem (ch : List (List ℚ)) (i j : ℕ) (hi : i < 32) (hj : j < 32) :
    bilinearAt ch ch.length (ch.headD []).length i j ∈
      flatMat (resizeChannel ch) := by
  refine List.mem_flatMap.2
    ⟨(List.range 32).map fun j' =>
        bilinearAt ch ch.length (ch.headD []).length i j', ?_, ?_⟩
  · exact List.mem_map_of_mem _ (List.mem_range.2 hi)
  · exact List.mem_map_of_mem _ (List.mem_range.2 hj)

theorem bilinearAt_const (ch : List (List ℚ)) (hIn wIn : ℕ) (k : ℚ)
    (hlen : ch.length = hIn)
    (hrows : ∀ r ∈ ch, r.length = wIn)
    (hconst : ∀ r ∈ ch, ∀ x ∈ r, x = k)
    (hh : 0 < hIn) (hw : 0 < wIn) (i j : ℕ) (hi : i < 32) (hj : j < 32) :
    bilinearAt ch hIn wIn i j = k := by
  have at2k : ∀ y x, y < hIn → x < wIn → at2 ch y x = k := by
    intro y x hy hx
    have hylen : y < ch.length := by omega
    have hrowm : ch.getD y [] ∈ ch := by
      rw [List.getD_eq_getElem ch [] hylen]
      exact List.getElem_mem hylen
    have hxlen : x < (ch.getD y []).length := by rw [hrows _ hrowm]; exact hx
    rw [at2, List.getD_eq_getElem _ 0 hxlen]
    exact hconst _ hrowm _ (List.getElem_mem hxlen)
  have hy0 := lowIdx_lt hIn i hh hi
  have hy1 := hiIdx_lt hIn _ hy0
  have hx0 := lowIdx_lt wIn j hw hj
  have hx1 := hiIdx_lt wIn _ hx0
  simp only [bilinearAt]
  rw [at2k _ _ hy0 hx0, at2k _ _ hy0 hx1, at2k _ _ hy1 hx0, at2k _ _ hy1 hx1]
  ring

theorem permute201_channel_shape (raw : Tensor3) (hIn wIn c : ℕ)
    (hcube : IsCube hIn wIn c raw) (hh : 0 < hIn) :
    ∀ ch ∈ permute201 raw,
      ch.length = hIn ∧ (ch.headD []).length = wIn ∧ ∀ r ∈ ch, r.length = wIn := by
  intro ch hch
  obtain ⟨cc, hcc, rfl⟩ := List.mem_map.1 hch
  obtain ⟨hlen, hrow⟩ := hcube
  refine ⟨by simpa using hlen, ?_, ?_⟩
  · cases raw with
    | nil => simp at hlen; omega
    | cons r rest =>
      simpa using (hrow r (List.mem_cons_self r rest)).1
  · intro r hr
    obtain ⟨row, hrowm, rfl⟩ := List.mem_map.1 hr
    simpa using (hrow row hrowm).1

theorem permute201_const (raw : Tensor3) (hIn wIn c : ℕ) (k : ℚ)
    (hcube : IsCube hIn wIn c raw) (hh : 0 < hIn) (hw : 0 < wIn)
    (hconst : ∀ x ∈ flat3 raw, x = k) :
    ∀ ch ∈ permute201 raw, ∀ r ∈ ch, ∀ x ∈ r, x = k := by
  intro ch hch r hr x hx
  obtain ⟨cc, hcc, rfl⟩ := List.mem_map.1 hch
  obtain ⟨row, hrow, rfl⟩ := List.mem_map.1 hr
  obtain ⟨px, hpx, rfl⟩ := List.mem_map.1 hx
  have hcc' : cc < c := by
    have h := List.mem_range.1 hcc
    rwa [bandCount_eq raw hIn wIn c hcube hh hw] at h
  have hpxlen : px.length = c := (hcube.2 row hrow).2 px hpx
  rw [List.getD_eq_getElem px 0 (by omega)]
  exact hconst _ (mem_flat3.2 ⟨row, hrow, px, hpx, List.getElem_mem _⟩)

theorem resize_const_all (raw : Tensor3) (hIn wIn c : ℕ) (k : ℚ)
    (hcube : IsCube hIn wIn c raw) (hh : 0 < hIn) (hw : 0 < wIn)
    (hconst : ∀ x ∈ flat3 raw, x = k) :
    ∀ x ∈ flat3 (resize32 (permute201 raw)), x = k := by
  intro x hx
  obtain ⟨m, hm, hxm⟩ : ∃ m ∈ (permute201 raw).map resizeChannel, x ∈ flatMat m := by
    simpa [flat3, resize32, List.mem_flatMap] using hx
  obtain ⟨ch, hch, rfl⟩ := List.mem_map.1 hm
  obtain ⟨i, hi, j, hj, hxe⟩ := mem_resizeChannel_eq ch hxm
  obtain ⟨hchlen, hchhead, hchrows⟩ :=
    permute201_channel_shape raw hIn wIn c hcube hh ch hch
  rw [hxe, hchlen, hchhead]
  exact bilinearAt_const ch hIn wIn k hchlen hchrows
    (permute201_const raw hIn wIn c k hcube hh hw hconst ch hch) hh hw i j hi hj

/-- Claim C4: a constant-valued input cube resizes to a constant cube,
so the global maximum equals the global minimum and the unguarded
normalization `(x - min) / (max - min)` divides by zero; the loader
returns no well-defined tensor (NaN in the source's float semantics,
`none` in this embedding).  No guard exists anywhere on this path. -/
theorem constant_cube_unguarded (raw : Tensor3) (label hIn wIn c : ℕ) (k : ℚ)
    (hcube : IsCube hIn wIn c raw) (hh : 0 < hIn) (hw : 0 < wIn)
    (hconst : ∀ x ∈ flat3 raw, x = k) :
    tensorMax (resize32 (permute201 raw)) =
        tensorMin (resize32 (permute201 raw)) ∧
      getitem raw label = none := by
  have hall := resize_const_all raw hIn wIn c k hcube hh hw hconst
  have heq : tensorMax (resize32 (permute201 raw)) =
      tensorMin (resize32 (permute201 raw)) := by
    rw [tensorMax, tensorMin]
    exact (listMin_eq_listMax_of_const hall).symm
  refine ⟨heq, ?_⟩
  rw [getitem, normalizeTensor, if_pos heq]
  rfl

/-- Claim C4 witness input: the constant one-entry cube. -/
theorem constant_cube_unguarded_witness :
    tensorMax (resize32 (permute201 [[[5]]])) =
        tensorMin (resize32 (permute201 [[[5]]])) ∧
      getitem [[[5]]] 0 = none :=
  constant_cube_unguarded [[[5]]] 0 1 1 1 5 (by decide) (by decide) (by decide)
    (by intro x hx; simpa [flat3, flatMat] using hx)

/-- Claim C2 (amended): on a loadable cube of shape (hIn, wIn, c) whose
resized tensor is not constant-valued, the loader returns a tensor of
shape (c, 32, 32) regardless of hIn and wIn, every value lies in the
closed unit interval, and the label is the entry's stored class index. -/
theorem loader_output_shape_range (raw : Tensor3) (label hIn wIn c : ℕ)
    (hh : 0 < hIn) (hw : 0 < wIn)
    (hcube : IsCube hIn wIn c raw)
    (hnc : tensorMax (resize32 (permute201 raw)) ≠
      tensorMin (resize32 (permute201 raw))) :
    ∃ t, getitem raw label = some (t, label) ∧ shape3 t c 32 32 ∧
      ∀ x ∈ flat3 t, 0 ≤ x ∧ x ≤ 1 := by
  have hu := normalizeTensor_eq_some (resize32 (permute201 raw)) hnc
  refine ⟨(resize32 (permute201 raw)).map fun m => m.map fun r => r.map fun x =>
      (x - tensorMin (resize32 (permute201 raw))) /
        (tensorMax (resize32 (permute201 raw)) -
          tensorMin (resize32 (permute201 raw))), ?_, ?_, ?_⟩
  · rw [getitem, hu, Option.map_some']
  · apply shape3_map
    have h := shape3_resize32 (permute201 raw)
    have hlen : (permute201 raw).length = c := by
      simp [permute201, bandCount_eq raw hIn wIn c hcube hh hw]
    rwa [hlen] at h
  · intro x hx
    rw [flat3_map_eq] at hx
    obtain ⟨y, hy, rfl⟩ := List.mem_map.1 hx
    have hmin : tensorMin (resize32 (permute201 raw)) ≤ y := listMin_le hy
    have hmax : y ≤ tensorMax (resize32 (permute201 raw)) := le_listMax hy
    have hlt : tensorMin (resize32 (permute201 raw)) <
        tensorMax (resize32 (permute201 raw)) :=
      lt_of_le_of_ne (le_trans hmin hmax) (Ne.symm hnc)
    constructor
    · exact div_nonneg (by linarith) (by linarith)
    · rw [div_le_one (by linarith)]
      linarith

/-! Concrete cubes for the loader claims.  `stepCube` is a 2 by 1 by 1
cube with values 0 and 2: its resize is non-constant, so it exercises
the normal path.  `altCube` is a 64 by 1 by 1 cube whose rows alternate
0 and 2: bilinear downsampling by an exact factor of 2 averages each
adjacent pair to 1, so a non-constant input resizes to a constant
tensor and the normalization divides by zero anyway. -/

def stepCube : Tensor3 := [[[0]], [[2]]]

def chStep : List (List ℚ) := [[0], [2]]

def altCube : Tensor3 :=
  (List.range 64).map fun h => [[if h % 2 = 0 then (0 : ℚ) else 2]]

def chAlt : List (List ℚ) :=
  (List.range 64).map fun h => [if h % 2 = 0 then (0 : ℚ) else 2]

theorem permute201_stepCube : permute201 stepCube = [chStep] := rfl

theorem srcIndex_two_zero : srcIndex 2 0 = 0 := by
  rw [srcIndex, max_eq_left (by push_cast; norm_num)]

theorem srcIndex_two_31 : srcIndex 2 31 = 47 / 32 := by
  rw [srcIndex, max_eq_right (by push_cast; norm_num)]
  push_cast
  norm_num

theorem lowIdx_w1 (j : ℕ) (hj : j < 32) : lowIdx (srcIndex 1 j) = 0 :=
  lowIdx_eq _ 0 (by exact_mod_cast srcIndex_nonneg 1 j)
    (by exact_mod_cast srcIndex_lt 1 j one_pos hj)

theorem bilinearAt_chStep_00 : bilinearAt chStep 2 1 0 0 = 0 := by
  have hy : lowIdx (srcIndex 2 0) = 0 := by
    rw [srcIndex_two_zero]
    exact lowIdx_eq 0 0 (by norm_num) (by norm_num)
  have hx : lowIdx (srcIndex 1 0) = 0 := lowIdx_w1 0 (by norm_num)
  have hy1 : hiIdx 2 0 = 1 := rfl
  have hx1 : hiIdx 1 0 = 0 := rfl
  simp only [bilinearAt, hy, hx, hy1, hx1]
  rw [srcIndex_two_zero]
  have v0 : at2 chStep 0 0 = 0 := rfl
  have v1 : at2 chStep 1 0 = 2 := rfl
  rw [v0, v1]
  push_cast
  ring

theorem bilinearAt_chStep_31 : bilinearAt chStep 2 1 31 0 = 2 := by
  have hy : lowIdx (srcIndex 2 31) = 1 := by
    rw [srcIndex_two_31]
    exact lowIdx_eq _ 1 (by norm_num) (by norm_num)
  have hx : lowIdx (srcIndex 1 0) = 0 := lowIdx_w1 0 (by norm_num)
  have hy1 : hiIdx 2 1 = 1 := rfl
  have hx1 : hiIdx 1 0 = 0 := rfl
  simp only [bilinearAt, hy, hx, hy1, hx1]
  have hv : at2 chStep 1 0 = 2 := rfl
  rw [hv]
  ring

theorem stepCube_resize_nonconstant :
    tensorMax (resize32 (permute201 stepCube)) ≠
      tensorMin (resize32 (permute201 stepCube)) := by
  have hres : resize32 (permute201 stepCube) = [resizeChannel chStep] := by
    rw [permute201_stepCube]; rfl
  have hm0 : (0 : ℚ) ∈ flat3 (resize32 (permute201 stepCube)) := by
    rw [hres, flat3_single, ← bilinearAt_chStep_00]
    exact bilinearAt_mem chStep 0 0 (by norm_num) (by norm_num)
  have hm2 : (2 : ℚ) ∈ flat3 (resize32 (permute201 stepCube)) := by
    rw [hres, flat3_single, ← bilinearAt_chStep_31]
    exact bilinearAt_mem chStep 31 0 (by norm_num) (by norm_num)
  intro heq
  have h1 : tensorMin (resize32 (permute201 stepCube)) ≤ 0 := listMin_le hm0
  have h2 : (2 : ℚ) ≤ tensorMax (resize32 (permute201 stepCube)) := le_listMax hm2
  rw [heq] at h2
  linarith

/-- Claim C2 witness input: the loader applied to the 2 by 1 by 1 step
cube with stored label 3. -/
theorem loader_output_shape_range_witness :
    ∃ t, getitem stepCube 3 = some (t, 3) ∧ shape3 t 1 32 32 ∧
      ∀ x ∈ flat3 t, 0 ≤ x ∧ x ≤ 1 :=
  loader_output_shape_range stepCube 3 2 1 1 (by norm_num) (by norm_num)
    (by decide) stepCube_resize_nonconstant

theorem permute201_altCube : permute201 altCube = [chAlt] := by
  rw [permute201, show bandCount altCube = 1 from rfl]
  rw [show List.range 1 = [0] from rfl]
  rw [List.map_singleton, altCube, chAlt, List.map_map]
  rfl

theorem at2_chAlt (y : ℕ) (hy : y < 64) :
    at2 chAlt y 0 = if y % 2 = 0 then (0 : ℚ) else 2 := by
  have hylen : y < chAlt.length := by simpa [chAlt] using hy
  rw [at2, List.getD_eq_getElem chAlt [] hylen]
  simp [chAlt]

theorem srcIndex64 (i : ℕ) : srcIndex 64 i = 2 * (i : ℚ) + 1 / 2 := by
  have hi : (0 : ℚ) ≤ (i : ℚ) := Nat.cast_nonneg i
  rw [srcIndex, max_eq_right (by push_cast; linarith)]
  push_cast
  ring

theorem bilinearAt_chAlt (i j : ℕ) (hi : i < 32) (hj : j < 32) :
    bilinearAt chAlt 64 1 i j = 1 := by
  have hiq : (i : ℚ) ≤ 31 := by exact_mod_cast Nat.lt_succ_iff.1 hi
  have hy : lowIdx (srcIndex 64 i) = 2 * i := by
    rw [srcIndex64]
    exact lowIdx_eq _ (2 * i) (by push_cast; linarith) (by push_cast; linarith)
  have hx : lowIdx (srcIndex 1 j) = 0 := lowIdx_w1 j hj
  have hy1 : hiIdx 64 (2 * i) = 2 * i + 1 := by rw [hiIdx, if_pos (by omega)]
  have hx1 : hiIdx 1 0 = 0 := rfl
  simp only [bilinearAt, hy, hx, hy1, hx1]
  rw [at2_chAlt (2 * i) (by omega), at2_chAlt (2 * i + 1) (by omega),
    if_pos (by omega), if_neg (by omega), srcIndex64]
  push_cast
  ring

theorem altCube_resize_all_one :
    ∀ x ∈ flat3 (resize32 (permute201 altCube)), x = 1 := by
  intro x hx
  rw [permute201_altCube, show resize32 [chAlt] = [resizeChannel chAlt] from rfl,
    flat3_single] at hx
  obtain ⟨i, hi, j, hj, hxe⟩ := mem_resizeChannel_eq chAlt hx
  rw [hxe, show chAlt.length = 64 by simp [chAlt],
    show (chAlt.headD []).length = 1 from rfl]
  exact bilinearAt_chAlt i j hi hj

/-- Claim C2 counterexample: `altCube` is a loadable cube of shape
(64, 1, 1) that is not constant-valued (it holds both 0 and 2), yet the
loader returns no tensor with values in the unit interval: torch
bilinear downsampling averages the alternating rows to the constant 1,
the global maximum equals the global minimum, and the unguarded
normalization divides by zero (`none` here, NaN in float semantics). -/
theorem loader_nonconstant_raw_fails :
    IsCube 64 1 1 altCube ∧ (0 : ℚ) ∈ flat3 altCube ∧
      (2 : ℚ) ∈ flat3 altCube ∧ getitem altCube 0 = none := by
  refine ⟨by decide, ?_, ?_, ?_⟩
  · refine mem_flat3.2 ⟨[[if 0 % 2 = 0 then (0 : ℚ) else 2]], ?_,
      [if 0 % 2 = 0 then (0 : ℚ) else 2], by norm_num, by norm_num⟩
    rw [altCube]
    exact List.mem_map_of_mem _ (List.mem_range.2 (by norm_num))
  · refine mem_flat3.2 ⟨[[if 1 % 2 = 0 then (0 : ℚ) else 2]], ?_,
      [if 1 % 2 = 0 then (0 : ℚ) else 2], by norm_num, by norm_num⟩
    rw [altCube]
    exact List.mem_map_of_mem _ (List.mem_range.2 (by norm_num))
  · have heq : tensorMax (resize32 (permute201 altCube)) =
        tensorMin (resize32 (permute201 altCube)) := by
      rw [tensorMax, tensorMin]
      exact (listMin_eq_listMax_of_const altCube_resize_all_one).symm
    rw [getitem, normalizeTensor, if_pos heq]
    rfl

end Agromist
